import Mathlib

/-!
Verification of the ReelChoice session-coordination engine.

The definitions below are a shallow embedding of the Go sources:
the instant-runoff tally `CalculateWinner` (internal/party/rcv.go),
the data model (internal/party/state.go), and the coordinator
operations of internal/party/service.go together with the JoinParty
and StartNomination HTTP handlers (internal/api/handlers.go).

Go maps are modelled as association lists with distinct keys
maintained by `mapSet`; the unspecified iteration order of a Go map
is made explicit as an enumeration-order parameter where the source
iterates over a map (`CalculateWinnerOrd`), with the insertion/pool
order as the canonical default (`CalculateWinner`).
-/

namespace ReelChoice

/-- Movie as in state.go: ID, Title, Year, PosterPath. -/
structure Movie where
  id : String
  title : String
  year : String
  posterPath : String
deriving DecidableEq, Repr

/-- The zero value of the Movie struct, returned by a Go map lookup on a missing key. -/
def emptyMovie : Movie := ⟨"", "", "", ""⟩

/-- Go map insert-or-update on an association list: updates the value in
place when the key is present, otherwise appends the new binding. -/
def mapSet {α : Type} (k : String) (v : α) : List (String × α) → List (String × α)
  | [] => [(k, v)]
  | (k₁, v₁) :: rest => if k₁ = k then (k, v) :: rest else (k₁, v₁) :: mapSet k v rest

/-- Go map lookup on an association list. -/
def mapGet? {α : Type} (k : String) (m : List (String × α)) : Option α :=
  (m.find? (fun p => p.1 = k)).map (fun p => p.2)

/-- Walks the key list keeping each key not seen before. -/
def dedupFAux (seen : List String) : List String → List String
  | [] => []
  | x :: xs => if x ∈ seen then dedupFAux seen xs else x :: dedupFAux (x :: seen) xs

/-- Key set of a Go map built by inserting a list of keys in order:
first occurrences survive, duplicates are dropped. -/
def dedupF (l : List String) : List String := dedupFAux [] l

/-- getFirstActiveChoice from rcv.go: the highest-ranked movie id of the
ranking that is still active, or the empty string when none is. -/
def getFirstActiveChoice : List String → List String → String
  | [], _ => ""
  | m :: rest, active => if m ∈ active then m else getFirstActiveChoice rest active

/-- One round of vote counting in rcv.go: each submission casts one vote for
the first candidate of its ranking still in the active set; a submission
with no active choice casts none (the code skips the empty-string sentinel,
so the count of the empty id stays zero). -/
def roundTally (subs : List (String × List String)) (active : List String) (c : String) : Nat :=
  if c = "" then 0
  else (subs.filter (fun s => getFirstActiveChoice s.2 active = c)).length

/-- movieMap lookup from rcv.go: the map is built by inserting the pool in
order, so a duplicated id keeps the last movie; a missing id yields the
zero Movie value. -/
def movieFind (pool : List Movie) (mid : String) : Movie :=
  ((pool.filter (fun m => m.id = mid)).getLast?).getD emptyMovie

/-- The majority scan of rcv.go: the first candidate in the enumeration
order whose round tally reaches the threshold. -/
def findMajority (order : List String) (t : String → Nat) (threshold : Nat) : Option String :=
  order.find? (fun c => decide (threshold ≤ t c))

/-- The elimination scan of rcv.go: fold over the vote-count entries in
enumeration order, keeping the candidate whose tally strictly lowers the
running minimum (initial minimum totalVoters + 1, initial candidate the
empty string). -/
def elimScan (t : String → Nat) : List String → Nat → String → String
  | [], _, best => best
  | c :: rest, minV, best =>
    if t c < minV then elimScan t rest (t c) c
    else elimScan t rest minV best

/-- The RCV round loop of rcv.go. `ords` gives, per round, the order in
which the vote-count map is enumerated (Go leaves it unspecified); a round
beyond `ords` uses the active list itself, i.e. pool order. The fuel
argument bounds the rounds; it starts at the size of the active set, which
is never exhausted because each round removes one active candidate. The
second component counts the elimination rounds performed. -/
def rcvLoop (pool : List Movie) (subs : List (String × List String))
    (threshold totalVoters : Nat) (ords : List (List String)) :
    Nat → Nat → List String → Except String Movie × Nat
  | _, rnd, [] => (Except.ok (pool.headD emptyMovie), rnd)
  | _, rnd, [c] => (Except.ok (movieFind pool c), rnd)
  | 0, rnd, _ :: _ :: _ => (Except.ok (pool.headD emptyMovie), rnd)
  | fuel + 1, rnd, c₁ :: c₂ :: rest =>
    let active := c₁ :: c₂ :: rest
    let order := ords.getD rnd active
    let t := roundTally subs active
    match findMajority order t threshold with
    | some w => (Except.ok (movieFind pool w), rnd)
    | none =>
      let e := elimScan t order (totalVoters + 1) ""
      if e = "" then (Except.ok (pool.headD emptyMovie), rnd)
      else rcvLoop pool subs threshold totalVoters ords fuel (rnd + 1) (active.erase e)

/-- CalculateWinner from rcv.go, with the per-round map-enumeration orders
made explicit, paired with the number of elimination rounds performed. -/
def CalculateWinnerOrd (ords : List (List String)) (pool : List Movie)
    (subs : List (String × List String)) : Except String Movie × Nat :=
  if pool.length = 0 then (Except.error "no movies in nomination pool", 0)
  else if subs.length = 0 then (Except.error "no voting submissions received", 0)
  else if pool.length = 1 then (Except.ok (pool.headD emptyMovie), 0)
  else
    let active := dedupF (pool.map Movie.id)
    let totalVoters := subs.length
    let threshold := totalVoters / 2 + 1
    rcvLoop pool subs threshold totalVoters ords active.length 0 active

/-- CalculateWinner with the canonical pool-order enumeration of the
vote-count map in every round. -/
def CalculateWinner (pool : List Movie) (subs : List (String × List String)) :
    Except String Movie :=
  (CalculateWinnerOrd [] pool subs).1

/-- Whether a tally outcome is an error. -/
def tallyIsError : Except String Movie → Bool
  | Except.error _ => true
  | Except.ok _ => false

/-- Participant as in state.go. -/
structure Participant where
  id : String
  username : String
  isHost : Bool
deriving DecidableEq, Repr

/-- NominationVote as in state.go: the movie under vote and the map from
participant id to the recorded vote string. -/
structure NominationVote where
  movie : Movie
  voters : List (String × String)
deriving DecidableEq, Repr

/-- Party as in state.go. The phase is a plain string, as in the source. -/
structure Party where
  id : String
  name : String
  participants : List (String × Participant)
  phase : String
  currentNomination : Option NominationVote
  nominationPool : List Movie
  submissions : List (String × List String)
  winner : Option Movie
deriving DecidableEq, Repr

def PhaseLobby : String := "lobby"
def PhaseNominating : String := "nominating"
def PhaseRanking : String := "ranking"
def PhaseFinished : String := "finished"

/-- AddParticipant from state.go. -/
def Party.addParticipant (p : Party) (userID username : String) (isHost : Bool) : Party :=
  { p with participants := mapSet userID ⟨userID, username, isHost⟩ p.participants }

/-- GetParticipant from state.go. -/
def Party.getParticipant (p : Party) (userID : String) : Option Participant :=
  mapGet? userID p.participants

/-- IsHost from state.go: the participant exists and carries the host flag. -/
def Party.checkHost (p : Party) (userID : String) : Bool :=
  match p.getParticipant userID with
  | some pt => pt.isHost
  | none => false

/-- Store and lock effects performed by an operation, in program order.
Redis itself is assumed reachable; a SaveParty carries the record written. -/
inductive Event where
  | acquire
  | release
  | readParty
  | save (p : Party)
deriving DecidableEq, Repr

/-- WithLock from service.go: a failed acquisition returns the conflict
error without running the body; otherwise the body runs between the
acquire and the deferred release. -/
def withLock (acquired : Bool) (body : List Event × Except String Party) :
    List Event × Except String Party :=
  if acquired then (Event.acquire :: body.1 ++ [Event.release], body.2)
  else ([], Except.error "party is currently being modified by another request")

/-- Critical section of SuggestMovie in service.go. The movie-lookup
collaborator response is an input: `none` covers both a lookup failure and
a missing movie, each of which makes the section return an error. -/
def suggestMovieBody (p? : Option Party) (lookup : Option Movie) :
    List Event × Except String Party :=
  match p? with
  | none => ([Event.readParty], Except.error "party not found")
  | some party =>
    if party.phase ≠ PhaseNominating then
      ([Event.readParty], Except.error "nominations are not open")
    else if party.currentNomination.isSome then
      ([Event.readParty], Except.error "another nomination is already in progress")
    else
      match lookup with
      | none => ([Event.readParty], Except.error "movie not found")
      | some movie =>
        let party' := { party with currentNomination := some ⟨movie, []⟩ }
        ([Event.readParty, Event.save party'], Except.ok party')

/-- Number of yay votes over a voters map, as counted in service.go. -/
def yayCount (voters : List (String × String)) : Nat :=
  (voters.filter (fun kv => kv.2 = "yay")).length

/-- State produced by a recorded vote in service.go: the vote is written
into the voters map with last-vote-wins; once the recorded votes reach the
participant count the nomination is tallied — the movie joins the pool iff
yay votes exceed half the participant count (integer division) and the
in-flight nomination is cleared either way. -/
def votedParty (party : Party) (nom : NominationVote) (userID vote : String) : Party :=
  let voters' := mapSet userID vote nom.voters
  let total := party.participants.length
  if voters'.length ≥ total then
    let pool' :=
      if yayCount voters' > total / 2 then party.nominationPool ++ [nom.movie]
      else party.nominationPool
    { party with currentNomination := none, nominationPool := pool' }
  else
    { party with currentNomination := some { nom with voters := voters' } }

/-- Critical section of VoteNomination in service.go: requires an in-flight
nomination and a yay or nay vote (no participant check), then records the
vote and possibly tallies, as described at `votedParty`. -/
def voteNominationBody (p? : Option Party) (userID vote : String) :
    List Event × Except String Party :=
  match p? with
  | none => ([Event.readParty], Except.error "party not found")
  | some party =>
    match party.currentNomination with
    | none => ([Event.readParty], Except.error "no nomination in progress")
    | some nom =>
      if vote ≠ "yay" ∧ vote ≠ "nay" then
        ([Event.readParty], Except.error "vote must be yay or nay")
      else
        let party' := votedParty party nom userID vote
        ([Event.readParty, Event.save party'], Except.ok party')

/-- Critical section of FinalizeNominations in service.go. -/
def finalizeNominationsBody (p? : Option Party) (hostID : String) :
    List Event × Except String Party :=
  match p? with
  | none => ([Event.readParty], Except.error "party not found")
  | some party =>
    if ¬ party.checkHost hostID then
      ([Event.readParty], Except.error "only the host can finalize nominations")
    else if party.phase ≠ PhaseNominating then
      ([Event.readParty], Except.error "party is not in nominating phase")
    else if party.nominationPool.length = 0 then
      ([Event.readParty], Except.error "no movies have been nominated")
    else
      let party' := { party with phase := PhaseRanking, currentNomination := none }
      ([Event.readParty, Event.save party'], Except.ok party')

/-- State produced by an accepted ranking in service.go: the ranking is
stored or overwritten under the caller id; once the stored submissions
reach the participant count the winner is computed and the party finishes
(a tally error is only logged; the phase still becomes finished). -/
def rankedParty (party : Party) (userID : String) (rankings : List String) : Party :=
  let subs' := mapSet userID rankings party.submissions
  if subs'.length = party.participants.length then
    match CalculateWinner party.nominationPool subs' with
    | Except.ok w =>
      { party with submissions := subs', winner := some w, phase := PhaseFinished }
    | Except.error _ =>
      { party with submissions := subs', phase := PhaseFinished }
  else
    { party with submissions := subs' }

/-- Critical section of SubmitRanking in service.go: requires ranking phase
and a ranking exactly as long as the pool whose every id is a pool id,
then stores it and possibly tallies, as described at `rankedParty`. -/
def submitRankingBody (p? : Option Party) (userID : String) (rankings : List String) :
    List Event × Except String Party :=
  match p? with
  | none => ([Event.readParty], Except.error "party not found")
  | some party =>
    if party.phase ≠ PhaseRanking then
      ([Event.readParty], Except.error "ranking is not open")
    else if rankings.length ≠ party.nominationPool.length then
      ([Event.readParty], Except.error "ranking must include all nominated movies")
    else if ¬ (rankings.all (fun mid => (party.nominationPool.map Movie.id).contains mid)) then
      ([Event.readParty], Except.error "invalid movie ID in ranking")
    else
      let party' := rankedParty party userID rankings
      ([Event.readParty, Event.save party'], Except.ok party')

/-- SuggestMovie from service.go: the critical section wrapped in WithLock. -/
def SuggestMovie (acquired : Bool) (p? : Option Party) (lookup : Option Movie) :
    List Event × Except String Party :=
  withLock acquired (suggestMovieBody p? lookup)

/-- VoteNomination from service.go: the critical section wrapped in WithLock. -/
def VoteNomination (acquired : Bool) (p? : Option Party) (userID vote : String) :
    List Event × Except String Party :=
  withLock acquired (voteNominationBody p? userID vote)

/-- FinalizeNominations from service.go: the critical section wrapped in WithLock. -/
def FinalizeNominations (acquired : Bool) (p? : Option Party) (hostID : String) :
    List Event × Except String Party :=
  withLock acquired (finalizeNominationsBody p? hostID)

/-- SubmitRanking from service.go: the critical section wrapped in WithLock. -/
def SubmitRanking (acquired : Bool) (p? : Option Party) (userID : String)
    (rankings : List String) : List Event × Except String Party :=
  withLock acquired (submitRankingBody p? userID rankings)

/-- JoinParty from internal/api/handlers.go: reads the party, rejects an
empty or already-taken username (exact match), adds a non-host participant
and saves — with no lock acquisition anywhere. Token issuance after the
save does not touch the session record and is omitted. -/
def JoinParty (p? : Option Party) (username newUserID : String) :
    List Event × Except String Party :=
  if username = "" then ([], Except.error "Username cannot be empty")
  else
    match p? with
    | none => ([Event.readParty], Except.error "Party not found")
    | some party =>
      if party.participants.any (fun kv => kv.2.username = username) then
        ([Event.readParty], Except.error "Username already taken in this party")
      else
        let party' := party.addParticipant newUserID username false
        ([Event.readParty, Event.save party'], Except.ok party')

/-- StartNomination from internal/api/handlers.go: after token validation
(the host flag of the token is an input here), reads the party, requires
the lobby phase, moves to nominating with an empty pool and saves — with
no lock acquisition anywhere. -/
def StartNomination (tokenIsHost : Bool) (p? : Option Party) :
    List Event × Except String Party :=
  if ¬ tokenIsHost then ([], Except.error "Only the host can start nomination phase")
  else
    match p? with
    | none => ([Event.readParty], Except.error "Party not found")
    | some party =>
      if party.phase ≠ PhaseLobby then
        ([Event.readParty], Except.error "Party must be in lobby phase to start nominations")
      else
        let party' :=
          { party with phase := PhaseNominating, currentNomination := none,
                       nominationPool := [] }
        ([Event.readParty, Event.save party'], Except.ok party')

/-- Scans a trace with the current lock depth and reports whether some
save happens while no lock is held. -/
def saveOutsideLockAux : List Event → Nat → Bool
  | [], _ => false
  | Event.acquire :: rest, d => saveOutsideLockAux rest (d + 1)
  | Event.release :: rest, d => saveOutsideLockAux rest (d - 1)
  | Event.save _ :: rest, d => decide (d = 0) || saveOutsideLockAux rest d
  | Event.readParty :: rest, d => saveOutsideLockAux rest d

/-- Whether a trace saves the session outside any lock-held section. -/
def saveOutsideLock (t : List Event) : Bool := saveOutsideLockAux t 0

/-- The first session record saved by a trace, if any. -/
def savedParty : List Event → Option Party
  | [] => none
  | Event.save p :: _ => some p
  | _ :: rest => savedParty rest

/-- Whether an operation outcome is an error. -/
def opIsError : Except String Party → Bool
  | Except.error _ => true
  | Except.ok _ => false

/-- An operation result is atomic with respect to the store: an error
outcome saves nothing, and a success saves exactly the returned record. -/
def atomicSave (r : List Event × Except String Party) : Prop :=
  (∀ e, r.2 = Except.error e → savedParty r.1 = none)
  ∧ (∀ p, r.2 = Except.ok p → savedParty r.1 = some p)

/-- The coordinator operations on one session, with collaborator responses
(movie lookup, token host flag, generated ids) as inputs. -/
inductive Op where
  | suggest (lookup : Option Movie)
  | vote (userID voteStr : String)
  | finalize (hostID : String)
  | submitR (userID : String) (rankings : List String)
  | join (username newUserID : String)
  | startNom (tokenIsHost : Bool)

/-- Result of one coordinator operation on a present session. -/
def applyOp (op : Op) (party : Party) : Except String Party :=
  match op with
  | Op.suggest lookup => (suggestMovieBody (some party) lookup).2
  | Op.vote u v => (voteNominationBody (some party) u v).2
  | Op.finalize h => (finalizeNominationsBody (some party) h).2
  | Op.submitR u rs => (submitRankingBody (some party) u rs).2
  | Op.join u nid => (JoinParty (some party) u nid).2
  | Op.startNom ih => (StartNomination ih (some party)).2

/-- Running a sequence of operations: a failed operation leaves the session
unchanged, a successful one replaces it with the saved record. -/
def applySeq : List Op → Party → Party
  | [], p => p
  | op :: rest, p =>
    applySeq rest (match applyOp op p with
      | Except.ok p' => p'
      | Except.error _ => p)

/-- Position of a phase along Lobby, Nominating, Ranking, Finished. -/
def phaseRank (s : String) : Nat :=
  if s = PhaseLobby then 0
  else if s = PhaseNominating then 1
  else if s = PhaseRanking then 2
  else if s = PhaseFinished then 3
  else 0

/-! Concrete fixtures used by witnesses and counterexamples. -/

def mA : Movie := ⟨"A", "Movie A", "2001", "pa"⟩
def mB : Movie := ⟨"B", "Movie B", "2002", "pb"⟩
def mC : Movie := ⟨"C", "Movie C", "2003", "pc"⟩

/-- Two voters whose first choices split between the two pool movies:
first-round tallies tie at 1 and 1. -/
def subsTie : List (String × List String) := [("u1", ["A"]), ("u2", ["B"])]

/-- Five submissions ranking three movies with movie A first on three of
them: A holds a first-round majority (threshold 3). -/
def subsMaj : List (String × List String) :=
  [("u1", ["A", "B", "C"]), ("u2", ["A", "C", "B"]), ("u3", ["A", "B", "C"]),
   ("u4", ["B", "A", "C"]), ("u5", ["C", "B", "A"])]

/-- Five submissions over three movies with first-round tallies A=2, B=2,
C=1: C is eliminated, and the C voter falling back to B gives B a
majority of 3 in the second round. -/
def subsElim : List (String × List String) :=
  [("u1", ["A", "B", "C"]), ("u2", ["A", "C", "B"]), ("u3", ["B", "A", "C"]),
   ("u4", ["B", "C", "A"]), ("u5", ["C", "B", "A"])]

/-- A lobby-phase party with a single host participant. -/
def partyL : Party :=
  { id := "p1", name := "Friday", phase := PhaseLobby
    participants := [("u1", ⟨"u1", "alice", true⟩)]
    currentNomination := none, nominationPool := [], submissions := [], winner := none }

/-- A nominating-phase party of three participants with movie C under
vote; two votes are already recorded, one yay and one nay. -/
def partyN : Party :=
  { id := "p2", name := "Saturday", phase := PhaseNominating
    participants :=
      [("u1", ⟨"u1", "alice", true⟩), ("u2", ⟨"u2", "bob", false⟩),
       ("u3", ⟨"u3", "carol", false⟩)]
    currentNomination := some ⟨mC, [("u1", "yay"), ("u2", "nay")]⟩
    nominationPool := [], submissions := [], winner := none }

/-- The in-flight nomination of `partyN`. -/
def nomN : NominationVote := ⟨mC, [("u1", "yay"), ("u2", "nay")]⟩

/-- A ranking-phase party of three participants whose pool holds movies A
and B, with no submission stored yet. -/
def partyR : Party :=
  { id := "p3", name := "Sunday", phase := PhaseRanking
    participants :=
      [("u1", ⟨"u1", "alice", true⟩), ("u2", ⟨"u2", "bob", false⟩),
       ("u3", ⟨"u3", "carol", false⟩)]
    currentNomination := none, nominationPool := [mA, mB], submissions := [], winner := none }

/-! Helper lemmas about the map model. -/

theorem mapGet?_mapSet_self {α : Type} (k : String) (v : α) (m : List (String × α)) :
    mapGet? k (mapSet k v m) = some v := by
  induction m with
  | nil => simp [mapSet, mapGet?, List.find?]
  | cons kv rest ih =>
    by_cases h : kv.1 = k
    · simp [mapSet, h, mapGet?, List.find?]
    · cases kv with
      | mk k₁ v₁ =>
        simp only [mapSet]
        simp only at h
        rw [if_neg h]
        simpa [mapGet?, List.find?, h] using ih

theorem mapSet_idem {α : Type} (k : String) (v : α) (m : List (String × α)) :
    mapSet k v (mapSet k v m) = mapSet k v m := by
  induction m with
  | nil => simp [mapSet]
  | cons kv rest ih =>
    cases kv with
    | mk k₁ v₁ =>
      by_cases h : k₁ = k
      · simp [mapSet, h]
      · simp [mapSet, h, ih]

/-! Helper lemmas about the tally. -/

theorem roundTally_le (subs : List (String × List String)) (active : List String)
    (c : String) : roundTally subs active c ≤ subs.length := by
  unfold roundTally
  split
  · exact Nat.zero_le _
  · exact List.length_filter_le _ _

theorem length_filter_two_le {α : Type} (l : List α) (p q : α → Bool)
    (h : ∀ x, p x = true → q x = true → False) :
    (l.filter p).length + (l.filter q).length ≤ l.length := by
  induction l with
  | nil => simp
  | cons x rest ih =>
    by_cases hp : p x = true
    · have hq : q x = false := by
        cases hq : q x
        · rfl
        · exact absurd (h x hp hq) (fun f => f)
      simp [List.filter, hp, hq]
      omega
    · have hp' : p x = false := by
        cases hpc : p x
        · rfl
        · exact absurd hpc hp
      by_cases hq : q x = true
      · simp [List.filter, hp', hq]
        omega
      · have hq' : q x = false := by
          cases hqc : q x
          · rfl
          · exact absurd hqc hq
        simp [List.filter, hp', hq']
        omega

theorem roundTally_add_le (subs : List (String × List String)) (active : List String)
    (c d : String) (hcd : c ≠ d) :
    roundTally subs active c + roundTally subs active d ≤ subs.length := by
  by_cases hc : c = ""
  · have h0 : roundTally subs active c = 0 := by simp [roundTally, hc]
    rw [h0, Nat.zero_add]
    exact roundTally_le _ _ _
  · by_cases hd : d = ""
    · have h0 : roundTally subs active d = 0 := by simp [roundTally, hd]
      rw [h0, Nat.add_zero]
      exact roundTally_le _ _ _
    · unfold roundTally
      rw [if_neg hc, if_neg hd]
      refine length_filter_two_le _ _ _ ?_
      intro x hx hy
      simp only [decide_eq_true_eq] at hx hy
      exact hcd (hx.symm.trans hy)

theorem majority_unique (subs : List (String × List String)) (active : List String)
    (c d : String)
    (hc : subs.length / 2 + 1 ≤ roundTally subs active c)
    (hd : subs.length / 2 + 1 ≤ roundTally subs active d) : c = d := by
  by_contra hne
  have h := roundTally_add_le subs active c d hne
  omega

theorem find?_eq_some_of_unique {α : Type} (p : α → Bool) (l : List α) (c : α)
    (hmem : c ∈ l) (hc : p c = true) (huniq : ∀ d ∈ l, p d = true → d = c) :
    l.find? p = some c := by
  induction l with
  | nil => cases hmem
  | cons x rest ih =>
    by_cases hx : p x = true
    · have hxc : x = c := huniq x (List.mem_cons_self x rest) hx
      subst hxc
      simp [List.find?, hx]
    · have hx' : p x = false := by
        cases hpc : p x
        · rfl
        · exact absurd hpc hx
      have hcx : c ≠ x := fun h => hx (h ▸ hc)
      have hmem' : c ∈ rest := by
        cases hmem with
        | head => exact absurd rfl hcx.symm
        | tail _ h => exact h
      simp only [List.find?, hx']
      exact ih hmem' (fun d hd hpd => huniq d (List.mem_cons_of_mem _ hd) hpd)

theorem elimScan_min (t : String → Nat) :
    ∀ (order : List String) (minV : Nat) (best : String),
      (elimScan t order minV best = best ∧ ∀ c ∈ order, minV ≤ t c)
      ∨ (elimScan t order minV best ∈ order
          ∧ t (elimScan t order minV best) < minV
          ∧ ∀ c ∈ order, t (elimScan t order minV best) ≤ t c) := by
  intro order
  induction order with
  | nil => intro minV best; exact Or.inl ⟨rfl, by intro c hc; cases hc⟩
  | cons x rest ih =>
    intro minV best
    by_cases hx : t x < minV
    · simp only [elimScan, if_pos hx]
      rcases ih (t x) x with ⟨heq, hall⟩ | ⟨hmem, hlt, hall⟩
      · refine Or.inr ⟨?_, ?_, ?_⟩
        · rw [heq]; exact List.mem_cons_self x rest
        · rw [heq]; exact hx
        · intro c hc
          rw [heq]
          cases hc with
          | head => exact le_refl _
          | tail _ h => exact hall c h
      · refine Or.inr ⟨List.mem_cons_of_mem x hmem, lt_trans hlt hx, ?_⟩
        intro c hc
        cases hc with
        | head => exact le_of_lt hlt
        | tail _ h => exact hall c h
    · simp only [elimScan, if_neg hx]
      rcases ih minV best with ⟨heq, hall⟩ | ⟨hmem, hlt, hall⟩
      · refine Or.inl ⟨heq, ?_⟩
        intro c hc
        cases hc with
        | head => exact Nat.le_of_not_lt hx
        | tail _ h => exact hall c h
      · refine Or.inr ⟨List.mem_cons_of_mem x hmem, hlt, ?_⟩
        intro c hc
        cases hc with
        | head => exact le_trans (le_of_lt hlt) (Nat.le_of_not_lt hx)
        | tail _ h => exact hall c h

theorem dedupFAux_mem (x : String) :
    ∀ (l seen : List String), x ∈ dedupFAux seen l ↔ (x ∈ l ∧ x ∉ seen) := by
  intro l
  induction l with
  | nil => intro seen; simp [dedupFAux]
  | cons y ys ih =>
    intro seen
    by_cases hy : y ∈ seen
    · rw [dedupFAux, if_pos hy, ih seen]
      simp only [List.mem_cons]
      constructor
      · rintro ⟨h, hn⟩
        exact ⟨Or.inr h, hn⟩
      · rintro ⟨h | h, hn⟩
        · exact absurd (h ▸ hy) hn
        · exact ⟨h, hn⟩
    · rw [dedupFAux, if_neg hy]
      simp only [List.mem_cons, ih (y :: seen), List.mem_cons]
      constructor
      · rintro (h | ⟨h, hn⟩)
        · exact ⟨Or.inl h, h ▸ hy⟩
        · exact ⟨Or.inr h, fun hx => hn (Or.inr hx)⟩
      · rintro ⟨h | h, hn⟩
        · exact Or.inl h
        · by_cases hxy : x = y
          · exact Or.inl hxy
          · exact Or.inr ⟨h, by rintro (h₁ | h₁) <;> [exact hxy h₁; exact hn h₁]⟩

theorem dedupF_mem (l : List String) (x : String) : x ∈ dedupF l ↔ x ∈ l := by
  rw [dedupF, dedupFAux_mem]
  simp

theorem rcvLoop_not_error (pool : List Movie) (subs : List (String × List String))
    (thr tv : Nat) (ords : List (List String)) :
    ∀ (fuel rnd : Nat) (active : List String),
      tallyIsError (rcvLoop pool subs thr tv ords fuel rnd active).1 = false := by
  intro fuel
  induction fuel with
  | zero =>
    intro rnd active
    match active with
    | [] => rfl
    | [c] => rfl
    | c₁ :: c₂ :: rest => rfl
  | succ f ih =>
    intro rnd active
    match active with
    | [] => rfl
    | [c] => rfl
    | c₁ :: c₂ :: rest =>
      simp only [rcvLoop]
      split
      · rfl
      · split
        · rfl
        · exact ih _ _

/-- Claim C2, amended: the tally errors exactly when the pool or the
submissions map is empty (the emptiness checks run first), and on a
single-candidate pool with a NON-EMPTY submissions map it returns that
candidate without consulting the content of the submissions. -/
theorem tally_single_pool_and_errors (pool : List Movie)
    (subs : List (String × List String)) (m : Movie) :
    (tallyIsError (CalculateWinner pool subs) = true ↔ pool = [] ∨ subs = [])
    ∧ (subs ≠ [] → CalculateWinner [m] subs = Except.ok m) := by
  constructor
  · constructor
    · intro h
      by_contra hboth
      push_neg at hboth
      obtain ⟨hp, hs⟩ := hboth
      have hp0 : pool.length ≠ 0 := by simpa [List.length_eq_zero] using hp
      have hs0 : subs.length ≠ 0 := by simpa [List.length_eq_zero] using hs
      simp only [CalculateWinner, CalculateWinnerOrd, if_neg hp0, if_neg hs0] at h
      by_cases h1 : pool.length = 1
      · rw [if_pos h1] at h
        exact absurd h (by simp [tallyIsError])
      · rw [if_neg h1] at h
        rw [rcvLoop_not_error] at h
        exact Bool.noConfusion h
    · intro h
      cases h with
      | inl hp =>
        subst hp
        simp [CalculateWinner, CalculateWinnerOrd, tallyIsError]
      | inr hs =>
        subst hs
        by_cases hp : pool.length = 0 <;>
          simp [CalculateWinner, CalculateWinnerOrd, tallyIsError, hp]
  · intro hs
    have hs0 : subs.length ≠ 0 := by simpa [List.length_eq_zero] using hs
    simp [CalculateWinner, CalculateWinnerOrd, hs0]

/-- Claim C2 counterexample: on the single-candidate pool with the EMPTY
submissions map the code returns the empty-submissions error, not the
candidate, because the submissions-emptiness check precedes the
single-candidate short cut. -/
theorem tally_single_pool_empty_subs_errors :
    CalculateWinner [mA] [] = Except.error "no voting submissions received"
    ∧ tallyIsError (CalculateWinner [mA] []) = true
    ∧ CalculateWinner [mA] [] ≠ Except.ok mA :=
  ⟨rfl, rfl, fun h => nomatch h⟩

/-- Witness for the amended claim C2 at a concrete input. -/
theorem tally_single_pool_witness :
    CalculateWinner [mA] [("u1", ["A"])] = Except.ok mA :=
  (tally_single_pool_and_errors [mA] [("u1", ["A"])] mA).2 (by simp)

/-- Claim C5: each submission casts one vote for its first-ranked still
active candidate (`roundTally`); with majority threshold
totalSubmissions / 2 + 1, IN EVERY ROUND of the loop — whatever the
current round index, active set and map-enumeration order — an active
candidate whose round tally reaches the threshold is returned at once,
with no further elimination performed (the elimination count stays at the
current round index); in particular a first-round majority over the full
pool ends the tally with zero elimination rounds. -/
theorem tally_majority_short_circuit (pool : List Movie)
    (subs : List (String × List String)) :
    (∀ (ords : List (List String)) (fuel rnd : Nat) (active : List String) (c : String),
        0 < fuel →
        (ords.getD rnd active).Perm active →
        c ∈ active →
        subs.length / 2 + 1 ≤ roundTally subs active c →
        rcvLoop pool subs (subs.length / 2 + 1) subs.length ords fuel rnd active
          = (Except.ok (movieFind pool c), rnd))
    ∧ (∀ c : String,
        c ∈ dedupF (pool.map Movie.id) →
        subs.length / 2 + 1 ≤ roundTally subs (dedupF (pool.map Movie.id)) c →
        CalculateWinnerOrd [] pool subs = (Except.ok (movieFind pool c), 0)) := by
  have main : ∀ (ords : List (List String)) (fuel rnd : Nat) (active : List String)
      (c : String),
      0 < fuel →
      (ords.getD rnd active).Perm active →
      c ∈ active →
      subs.length / 2 + 1 ≤ roundTally subs active c →
      rcvLoop pool subs (subs.length / 2 + 1) subs.length ords fuel rnd active
        = (Except.ok (movieFind pool c), rnd) := by
    intro ords fuel rnd active c hfuel hperm hc hm
    rcases active with _ | ⟨c₁, _ | ⟨c₂, rest⟩⟩
    · cases hc
    · have hcc : c = c₁ := by simpa using hc
      subst hcc
      cases fuel with
      | zero => exact absurd hfuel (by decide)
      | succ f => rfl
    · obtain ⟨f, rfl⟩ : ∃ f, fuel = f + 1 := ⟨fuel - 1, by omega⟩
      have hcord : c ∈ ords.getD rnd (c₁ :: c₂ :: rest) := hperm.mem_iff.mpr hc
      have huniq : ∀ d ∈ ords.getD rnd (c₁ :: c₂ :: rest),
          decide (subs.length / 2 + 1 ≤ roundTally subs (c₁ :: c₂ :: rest) d) = true →
            d = c := by
        intro d _ hd
        exact majority_unique subs (c₁ :: c₂ :: rest) d c (of_decide_eq_true hd) hm
      have hfm : findMajority (ords.getD rnd (c₁ :: c₂ :: rest))
          (roundTally subs (c₁ :: c₂ :: rest)) (subs.length / 2 + 1) = some c :=
        find?_eq_some_of_unique _ _ c hcord (decide_eq_true hm) huniq
      simp only [rcvLoop]
      rw [hfm]
  refine ⟨main, ?_⟩
  intro c hc hm
  have htle := roundTally_le subs (dedupF (pool.map Movie.id)) c
  have hs0 : subs.length ≠ 0 := by omega
  have hcmem : c ∈ pool.map Movie.id := (dedupF_mem _ _).mp hc
  have hp0 : pool.length ≠ 0 := by
    intro h
    rw [List.length_eq_zero] at h
    subst h
    simp at hcmem
  by_cases h1 : pool.length = 1
  · obtain ⟨m, rfl⟩ := List.length_eq_one.mp h1
    have hcm : c = m.id := by
      have : c ∈ [m.id] := by simpa [dedupF, dedupFAux] using hc
      simpa using this
    subst hcm
    simp [CalculateWinnerOrd, hs0, movieFind]
  · have hAne : dedupF (pool.map Movie.id) ≠ [] := by
      intro h
      rw [h] at hc
      cases hc
    have hlen : 0 < (dedupF (pool.map Movie.id)).length := List.length_pos.mpr hAne
    simp only [CalculateWinnerOrd, if_neg hp0, if_neg hs0, if_neg h1]
    exact main [] (dedupF (pool.map Movie.id)).length 0 (dedupF (pool.map Movie.id)) c
      hlen (List.Perm.refl _) hc hm

/-- Witness for claim C5, exercising both a post-elimination round and the
first round: on the documented elimination path (first-round tallies A=2,
B=2, C=1, C eliminated) candidate B holds a second-round majority, so the
loop at round index 1 with active set [A, B] returns B with the
elimination count still 1 — the state the actual full run reaches — and on
the majority example A wins in round 0 with zero eliminations. -/
theorem tally_majority_short_circuit_witness :
    rcvLoop [mA, mB, mC] subsElim (subsElim.length / 2 + 1) subsElim.length [] 2 1 ["A", "B"]
      = (Except.ok (movieFind [mA, mB, mC] "B"), 1)
    ∧ CalculateWinnerOrd [] [mA, mB, mC] subsElim
      = (Except.ok (movieFind [mA, mB, mC] "B"), 1)
    ∧ CalculateWinnerOrd [] [mA, mB, mC] subsMaj
      = (Except.ok (movieFind [mA, mB, mC] "A"), 0)
    ∧ movieFind [mA, mB, mC] "B" = mB
    ∧ movieFind [mA, mB, mC] "A" = mA := by
  refine ⟨?_, rfl, ?_, rfl, rfl⟩
  · exact (tally_majority_short_circuit [mA, mB, mC] subsElim).1
      [] 2 1 ["A", "B"] "B" (by decide) (by decide) (by decide) (by decide)
  · exact (tally_majority_short_circuit [mA, mB, mC] subsMaj).2 "A" (by decide) (by decide)

/-- Claim C1 counterexample: the elimination loop of rcv.go iterates over
the voteCounts map, whose enumeration order Go leaves unspecified. On the
two-candidate pool with tallies tied 1 and 1, the enumeration ["B", "A"]
is a permutation of the active key set, yet it eliminates B and crowns A,
while the pool-order enumeration eliminates A and crowns B: the eliminated
candidate is not the first lowest candidate in pool order, and the winner
is not a function of (pool, submissions) alone. -/
theorem tally_depends_on_enumeration_order :
    List.Perm ["B", "A"] (dedupF ([mA, mB].map Movie.id))
    ∧ (CalculateWinnerOrd [] [mA, mB] subsTie).1 = Except.ok mB
    ∧ (CalculateWinnerOrd [["B", "A"]] [mA, mB] subsTie).1 = Except.ok mA
    ∧ mA ≠ mB :=
  ⟨by decide, rfl, rfl, by decide⟩

/-- Claim C1, amended: at an elimination step the candidate eliminated is
one whose round tally is lowest among the active candidates, but which of
several tied-lowest candidates it is depends on the order in which the
vote-count map happens to be enumerated (an unspecified Go map order, not
the pool order), so the tally is deterministic only as a function of
(pool, submissions, enumeration orders). -/
theorem elimination_removes_lowest (subs : List (String × List String))
    (active order : List String) (hperm : order.Perm active) (hne : active ≠ []) :
    elimScan (roundTally subs active) order (subs.length + 1) "" ∈ active
    ∧ ∀ c ∈ active,
        roundTally subs active (elimScan (roundTally subs active) order (subs.length + 1) "")
          ≤ roundTally subs active c := by
  rcases elimScan_min (roundTally subs active) order (subs.length + 1) ""
    with ⟨heq, hall⟩ | ⟨hmem, hlt, hall⟩
  · exfalso
    obtain ⟨x, hx⟩ : ∃ x, x ∈ order := by
      cases horder : order with
      | nil =>
        rw [horder] at hperm
        exact absurd (List.perm_nil.mp hperm.symm) hne
      | cons y ys => exact ⟨y, horder ▸ List.mem_cons_self y ys⟩
    have h₁ := hall x hx
    have h₂ := roundTally_le subs active x
    omega
  · constructor
    · exact hperm.mem_iff.mp hmem
    · intro c hcA
      exact hall c (hperm.mem_iff.mpr hcA)

/-- Witness for the amended claim C1 at a concrete elimination step. -/
theorem elimination_removes_lowest_witness :
    elimScan (roundTally subsTie ["A", "B"]) ["B", "A"] (subsTie.length + 1) "" ∈ ["A", "B"] :=
  (elimination_removes_lowest subsTie ["A", "B"] ["B", "A"] (by decide) (by decide)).1

/-! Claims about the coordinator operations. -/

/-- Claim C3 counterexample: the JoinParty and StartNomination HTTP
handlers read, mutate and save the session with no lock acquisition at
all, so their saves happen outside any lock-held critical section. -/
theorem handlers_save_without_lock :
    saveOutsideLock (JoinParty (some partyL) "bob" "u2").1 = true
    ∧ saveOutsideLock (StartNomination true (some partyL)).1 = true :=
  ⟨rfl, rfl⟩

/-- Claim C3, amended: the four coordinator operations that go through
WithLock — SuggestMovie, VoteNomination, FinalizeNominations and
SubmitRanking — never save the session outside the lock-held critical
section; JoinParty and StartNomination, which the spec also lists, save
without the lock (see the counterexample). -/
theorem service_ops_save_under_lock :
    (∀ (acq : Bool) (p? : Option Party) (lk : Option Movie),
        saveOutsideLock (SuggestMovie acq p? lk).1 = false)
    ∧ (∀ (acq : Bool) (p? : Option Party) (u v : String),
        saveOutsideLock (VoteNomination acq p? u v).1 = false)
    ∧ (∀ (acq : Bool) (p? : Option Party) (hostID : String),
        saveOutsideLock (FinalizeNominations acq p? hostID).1 = false)
    ∧ (∀ (acq : Bool) (p? : Option Party) (u : String) (rs : List String),
        saveOutsideLock (SubmitRanking acq p? u rs).1 = false) := by
  refine ⟨?_, ?_, ?_, ?_⟩ <;> intro acq p? <;> intros <;> cases acq <;> cases p? <;>
    first
    | rfl
    | (simp only [SuggestMovie, VoteNomination, FinalizeNominations, SubmitRanking,
        withLock, suggestMovieBody, voteNominationBody, finalizeNominationsBody,
        submitRankingBody]
       repeat' split
       all_goals rfl)

/-- Claim C8: each of the four coordinator mutating operations saves
nothing when it returns an error, and on success saves exactly the state
it returns — the save happens only after the complete new state is
computed. -/
theorem coordinator_mutations_atomic :
    (∀ (acq : Bool) (p? : Option Party) (lk : Option Movie),
        atomicSave (SuggestMovie acq p? lk))
    ∧ (∀ (acq : Bool) (p? : Option Party) (u v : String),
        atomicSave (VoteNomination acq p? u v))
    ∧ (∀ (acq : Bool) (p? : Option Party) (hostID : String),
        atomicSave (FinalizeNominations acq p? hostID))
    ∧ (∀ (acq : Bool) (p? : Option Party) (u : String) (rs : List String),
        atomicSave (SubmitRanking acq p? u rs)) := by
  refine ⟨?_, ?_, ?_, ?_⟩ <;> intro acq p? <;> intros <;> cases acq <;> cases p? <;>
    (simp only [SuggestMovie, VoteNomination, FinalizeNominations, SubmitRanking,
       withLock, suggestMovieBody, voteNominationBody, finalizeNominationsBody,
       submitRankingBody, atomicSave]
     repeat' split
     all_goals
       first
       | exact ⟨(fun e he => rfl), (fun q hq => nomatch hq)⟩
       | exact ⟨(fun e he => nomatch he), (fun q hq => by cases hq; rfl)⟩)

/-- Witness for claim C8 at a concrete erroring input. -/
theorem coordinator_mutations_atomic_witness :
    savedParty (SuggestMovie true none (some mC)).1 = none :=
  (coordinator_mutations_atomic.1 true none (some mC)).1 "party not found" rfl

theorem votedParty_phase (party : Party) (nom : NominationVote) (u v : String) :
    (votedParty party nom u v).phase = party.phase := by
  simp only [votedParty]
  split <;> rfl

theorem rankedParty_phase (party : Party) (u : String) (rs : List String) :
    (rankedParty party u rs).phase = PhaseFinished
    ∨ (rankedParty party u rs).phase = party.phase := by
  simp only [rankedParty]
  split
  · split <;> exact Or.inl rfl
  · exact Or.inr rfl

theorem rankedParty_submissions (party : Party) (u : String) (rs : List String) :
    (rankedParty party u rs).submissions = mapSet u rs party.submissions := by
  simp only [rankedParty]
  split
  · split <;> rfl
  · rfl

theorem rankedParty_pool (party : Party) (u : String) (rs : List String) :
    (rankedParty party u rs).nominationPool = party.nominationPool := by
  simp only [rankedParty]
  split
  · split <;> rfl
  · rfl

theorem applyOp_phase_mono (op : Op) (p p' : Party)
    (h : applyOp op p = Except.ok p') : phaseRank p.phase ≤ phaseRank p'.phase := by
  cases op with
  | suggest lookup =>
    simp only [applyOp, suggestMovieBody] at h
    by_cases h₁ : p.phase ≠ PhaseNominating
    · rw [if_pos h₁] at h; simp at h
    · rw [if_neg h₁] at h
      by_cases h₂ : p.currentNomination.isSome = true
      · rw [if_pos h₂] at h; simp at h
      · rw [if_neg h₂] at h
        cases lookup with
        | none => simp at h
        | some movie =>
          simp only at h
          cases h
          exact le_refl _
  | vote u v =>
    cases hn : p.currentNomination with
    | none => simp [applyOp, voteNominationBody, hn] at h
    | some nom =>
      simp only [applyOp, voteNominationBody, hn] at h
      by_cases hv : v ≠ "yay" ∧ v ≠ "nay"
      · rw [if_pos hv] at h; simp at h
      · rw [if_neg hv] at h
        simp only at h
        cases h
        rw [votedParty_phase]
  | finalize hostID =>
    simp only [applyOp, finalizeNominationsBody] at h
    by_cases h₁ : ¬ p.checkHost hostID = true
    · rw [if_pos h₁] at h; simp at h
    · rw [if_neg h₁] at h
      by_cases h₂ : p.phase ≠ PhaseNominating
      · rw [if_pos h₂] at h; simp at h
      · rw [if_neg h₂] at h
        by_cases h₃ : p.nominationPool.length = 0
        · rw [if_pos h₃] at h; simp at h
        · rw [if_neg h₃] at h
          simp only at h
          cases h
          rw [not_not] at h₂
          rw [h₂]
          show phaseRank PhaseNominating ≤ phaseRank PhaseRanking
          decide
  | submitR u rs =>
    simp only [applyOp, submitRankingBody] at h
    by_cases h₁ : p.phase ≠ PhaseRanking
    · rw [if_pos h₁] at h; simp at h
    · rw [if_neg h₁] at h
      by_cases h₂ : rs.length ≠ p.nominationPool.length
      · rw [if_pos h₂] at h; simp at h
      · rw [if_neg h₂] at h
        by_cases h₃ : ¬ (rs.all fun mid => (p.nominationPool.map Movie.id).contains mid) = true
        · rw [if_pos h₃] at h; simp at h
        · rw [if_neg h₃] at h
          simp only at h
          cases h
          rw [not_not] at h₁
          rw [h₁]
          rcases rankedParty_phase p u rs with hf | hr
          · rw [hf]
            show phaseRank PhaseRanking ≤ phaseRank PhaseFinished
            decide
          · rw [hr, h₁]
  | join username nid =>
    simp only [applyOp, JoinParty] at h
    by_cases h₁ : username = ""
    · rw [if_pos h₁] at h; simp at h
    · rw [if_neg h₁] at h
      by_cases h₂ : (p.participants.any fun kv => kv.2.username = username) = true
      · rw [if_pos h₂] at h; simp at h
      · rw [if_neg h₂] at h
        simp only at h
        cases h
        exact le_refl _
  | startNom ih =>
    simp only [applyOp, StartNomination] at h
    by_cases h₁ : ¬ ih = true
    · rw [if_pos h₁] at h; simp at h
    · rw [if_neg h₁] at h
      by_cases h₂ : p.phase ≠ PhaseLobby
      · rw [if_pos h₂] at h; simp at h
      · rw [if_neg h₂] at h
        simp only at h
        cases h
        rw [not_not] at h₂
        rw [h₂]
        show phaseRank PhaseLobby ≤ phaseRank PhaseNominating
        decide

/-- Claim C6: over any sequence of coordinator operations applied to one
session, the phase index along Lobby, Nominating, Ranking, Finished never
decreases — no reachable operation outcome assigns an earlier phase. -/
theorem session_phase_monotone (ops : List Op) (p : Party) :
    phaseRank p.phase ≤ phaseRank (applySeq ops p).phase := by
  induction ops generalizing p with
  | nil => exact le_refl _
  | cons op rest ih =>
    simp only [applySeq]
    cases hop : applyOp op p with
    | ok p' => exact le_trans (applyOp_phase_mono op p p' hop) (ih p')
    | error e => exact ih p

/-- Claim C4: once the recorded votes (after this vote) equal the
participant count N, VoteNomination tallies — the candidate is appended to
the pool iff the yay count Y satisfies N / 2 < Y (integer division), the
pool is left unchanged otherwise, and the in-flight nomination is cleared
regardless of the outcome. -/
theorem voteNomination_completion_tally (party : Party) (nom : NominationVote)
    (u v : String)
    (hn : party.currentNomination = some nom)
    (hv : v = "yay" ∨ v = "nay")
    (hc : (mapSet u v nom.voters).length = party.participants.length) :
    (VoteNomination true (some party) u v).2 = Except.ok (votedParty party nom u v)
    ∧ (votedParty party nom u v).currentNomination = none
    ∧ ((votedParty party nom u v).nominationPool = party.nominationPool ++ [nom.movie]
        ↔ party.participants.length / 2 < yayCount (mapSet u v nom.voters))
    ∧ ((votedParty party nom u v).nominationPool = party.nominationPool
        ↔ ¬ party.participants.length / 2 < yayCount (mapSet u v nom.voters)) := by
  have hvne : ¬ (v ≠ "yay" ∧ v ≠ "nay") := by
    rcases hv with h | h <;> simp [h]
  have hge : (mapSet u v nom.voters).length ≥ party.participants.length :=
    le_of_eq hc.symm
  have hpoolne : party.nominationPool ++ [nom.movie] ≠ party.nominationPool := by
    intro heq
    have := congrArg List.length heq
    simp at this
  refine ⟨?_, ?_, ?_, ?_⟩
  · simp only [VoteNomination, withLock, voteNominationBody, hn, if_neg hvne]
    rfl
  · simp only [votedParty, if_pos hge]
  · simp only [votedParty, if_pos hge]
    by_cases hy : yayCount (mapSet u v nom.voters) > party.participants.length / 2
    · simp [hy]
    · simp only [if_neg hy]
      constructor
      · intro heq
        exact absurd heq.symm hpoolne
      · intro hlt
        exact absurd hlt hy
  · simp only [votedParty, if_pos hge]
    by_cases hy : yayCount (mapSet u v nom.voters) > party.participants.length / 2
    · simp only [if_pos hy]
      constructor
      · intro heq
        exact absurd heq hpoolne
      · intro hnlt
        exact absurd hy hnlt
    · simp [hy]

/-- Witness for claim C4: three participants, two recorded votes (one yay,
one nay); the completing third vote is yay, so the tally fires with Y = 2,
N = 3, the movie is appended, and the nomination is cleared. -/
theorem voteNomination_completion_witness :
    (VoteNomination true (some partyN) "u3" "yay").2
      = Except.ok (votedParty partyN nomN "u3" "yay")
    ∧ (votedParty partyN nomN "u3" "yay").currentNomination = none
    ∧ (votedParty partyN nomN "u3" "yay").nominationPool
      = partyN.nominationPool ++ [nomN.movie] := by
  obtain ⟨h₁, h₂, h₃, _⟩ :=
    voteNomination_completion_tally partyN nomN "u3" "yay" rfl (Or.inl rfl) (by decide)
  exact ⟨h₁, h₂, h₃.mpr (by decide)⟩

/-- Claim C9: VoteNomination errors exactly when the session is absent, no
nomination is in flight, or the vote is neither yay nor nay; it never
checks that the caller is a participant, so a caller absent from the
participants map has its vote recorded, counted toward the completion
check (which fires as soon as recorded votes reach the participant count)
and counted in the yay tally. -/
theorem voteNomination_no_participant_check (party : Party) (nom : NominationVote)
    (u v : String) :
    ((VoteNomination true none u v).2 = Except.error "party not found")
    ∧ (opIsError (VoteNomination true (some party) u v).2 = true
        ↔ (party.currentNomination = none ∨ (v ≠ "yay" ∧ v ≠ "nay")))
    ∧ (party.currentNomination = some nom → (v = "yay" ∨ v = "nay") →
        mapGet? u party.participants = none →
          (VoteNomination true (some party) u v).2 = Except.ok (votedParty party nom u v)
          ∧ mapGet? u (mapSet u v nom.voters) = some v
          ∧ (party.participants.length ≤ (mapSet u v nom.voters).length →
              (votedParty party nom u v).currentNomination = none)) := by
  refine ⟨rfl, ?_, ?_⟩
  · cases hn : party.currentNomination with
    | none => simp [VoteNomination, withLock, voteNominationBody, hn, opIsError]
    | some nom' =>
      by_cases hv : v ≠ "yay" ∧ v ≠ "nay"
      · simp only [VoteNomination, withLock, voteNominationBody, hn, if_pos hv]
        simp [opIsError, hv]
      · simp only [VoteNomination, withLock, voteNominationBody, hn, if_neg hv]
        simp [opIsError, hv]
  · intro hn hv hu
    have hvne : ¬ (v ≠ "yay" ∧ v ≠ "nay") := by
      rcases hv with h | h <;> simp [h]
    refine ⟨?_, mapGet?_mapSet_self u v nom.voters, ?_⟩
    · simp only [VoteNomination, withLock, voteNominationBody, hn, if_neg hvne]
      rfl
    · intro hge
      simp only [votedParty, if_pos hge]

/-- Witness for claim C9: a caller id absent from the participants map of
the three-participant party casts the third recorded vote, which fires the
tally and clears the nomination. -/
theorem voteNomination_no_participant_check_witness :
    (VoteNomination true (some partyN) "zz" "yay").2
      = Except.ok (votedParty partyN nomN "zz" "yay")
    ∧ (votedParty partyN nomN "zz" "yay").currentNomination = none := by
  obtain ⟨_, _, h₃⟩ := voteNomination_no_participant_check partyN nomN "zz" "yay"
  obtain ⟨ha, _, hcmpl⟩ := h₃ rfl (Or.inl rfl) (by decide)
  exact ⟨ha, hcmpl (by decide)⟩

theorem submitRankingBody_accepts (party : Party) (u : String) (rs : List String)
    (hph : party.phase = PhaseRanking)
    (hlen : rs.length = party.nominationPool.length)
    (hmem : ∀ mid ∈ rs, mid ∈ party.nominationPool.map Movie.id) :
    submitRankingBody (some party) u rs
      = ([Event.readParty, Event.save (rankedParty party u rs)],
         Except.ok (rankedParty party u rs)) := by
  have h₁ : ¬ party.phase ≠ PhaseRanking := by simp [hph]
  have h₂ : ¬ rs.length ≠ party.nominationPool.length := by simp [hlen]
  have h₃ : ¬ ¬ (rs.all fun mid => (party.nominationPool.map Movie.id).contains mid) = true := by
    simp only [not_not, List.all_eq_true]
    intro x hx
    simpa using hmem x hx
  simp only [submitRankingBody, if_neg h₁, if_neg h₂, if_neg h₃]

/-- Claim C7: with the session in ranking phase, SubmitRanking accepts a
ranking iff its length equals the pool size and every id occurs in the
pool; an error saves nothing, and an accepted submission stores or
overwrites the caller ranking, so resubmitting the same ranking while the
phase is still ranking leaves the submissions map unchanged. -/
theorem submitRanking_validation (party : Party) (u : String) (rs : List String)
    (hph : party.phase = PhaseRanking) :
    (opIsError (SubmitRanking true (some party) u rs).2 = false
        ↔ rs.length = party.nominationPool.length
          ∧ ∀ mid ∈ rs, mid ∈ party.nominationPool.map Movie.id)
    ∧ (opIsError (SubmitRanking true (some party) u rs).2 = true →
        savedParty (SubmitRanking true (some party) u rs).1 = none)
    ∧ (rs.length = party.nominationPool.length →
        (∀ mid ∈ rs, mid ∈ party.nominationPool.map Movie.id) →
          (SubmitRanking true (some party) u rs).2 = Except.ok (rankedParty party u rs)
          ∧ (rankedParty party u rs).submissions = mapSet u rs party.submissions
          ∧ ((rankedParty party u rs).phase = PhaseRanking →
              (SubmitRanking true (some (rankedParty party u rs)) u rs).2
                = Except.ok (rankedParty (rankedParty party u rs) u rs)
              ∧ (rankedParty (rankedParty party u rs) u rs).submissions
                = (rankedParty party u rs).submissions)) := by
  have h₁ : ¬ party.phase ≠ PhaseRanking := by simp [hph]
  refine ⟨?_, ?_, ?_⟩
  · constructor
    · intro hok
      by_cases h₂ : rs.length ≠ party.nominationPool.length
      · simp only [SubmitRanking, withLock, submitRankingBody, if_neg h₁, if_pos h₂,
          opIsError] at hok
        exact absurd hok (by simp)
      · by_cases h₃ : ¬ (rs.all fun mid => (party.nominationPool.map Movie.id).contains mid) = true
        · simp only [SubmitRanking, withLock, submitRankingBody, if_neg h₁, if_neg h₂,
            if_pos h₃, opIsError] at hok
          exact absurd hok (by simp)
        · rw [not_not] at h₂
          rw [not_not, List.all_eq_true] at h₃
          refine ⟨h₂, ?_⟩
          intro x hx
          simpa using h₃ x hx
    · rintro ⟨hlen, hmem⟩
      simp [SubmitRanking, withLock,
        submitRankingBody_accepts party u rs hph hlen hmem, opIsError]
  · intro herr
    by_cases h₂ : rs.length ≠ party.nominationPool.length
    · simp only [SubmitRanking, withLock, submitRankingBody, if_neg h₁, if_pos h₂]
      rfl
    · by_cases h₃ : ¬ (rs.all fun mid => (party.nominationPool.map Movie.id).contains mid) = true
      · simp only [SubmitRanking, withLock, submitRankingBody, if_neg h₁, if_neg h₂, if_pos h₃]
        rfl
      · exfalso
        simp only [SubmitRanking, withLock, submitRankingBody, if_neg h₁, if_neg h₂,
          if_neg h₃, opIsError] at herr
        exact absurd herr (by simp)
  · intro hlen hmem
    have hacc := submitRankingBody_accepts party u rs hph hlen hmem
    refine ⟨?_, rankedParty_submissions party u rs, ?_⟩
    · simp [SubmitRanking, withLock, hacc]
    · intro hph'
      have hlen' : rs.length = (rankedParty party u rs).nominationPool.length := by
        rw [rankedParty_pool]; exact hlen
      have hmem' : ∀ mid ∈ rs, mid ∈ (rankedParty party u rs).nominationPool.map Movie.id := by
        rw [rankedParty_pool]; exact hmem
      have hacc' := submitRankingBody_accepts (rankedParty party u rs) u rs hph' hlen' hmem'
      refine ⟨?_, ?_⟩
      · simp [SubmitRanking, withLock, hacc']
      · rw [rankedParty_submissions, rankedParty_submissions, mapSet_idem]

/-- Witness for claim C7 at a concrete accepted submission. -/
theorem submitRanking_validation_witness :
    (SubmitRanking true (some partyR) "u1" ["B", "A"]).2
      = Except.ok (rankedParty partyR "u1" ["B", "A"])
    ∧ (rankedParty partyR "u1" ["B", "A"]).submissions
      = mapSet "u1" ["B", "A"] partyR.submissions := by
  obtain ⟨_, _, h₃⟩ := submitRanking_validation partyR "u1" ["B", "A"] rfl
  obtain ⟨ha, hb, _⟩ := h₃ (by decide) (by decide)
  exact ⟨ha, hb⟩

/-- Claim C10: SubmitRanking does not require the ranking to be a
permutation of the pool — any list whose length equals the pool size and
whose every element is some pool id is accepted and stored, with no
distinctness requirement on the list. -/
theorem submitRanking_accepts_duplicates (party : Party) (u : String) (rs : List String)
    (hph : party.phase = PhaseRanking)
    (hlen : rs.length = party.nominationPool.length)
    (hmem : ∀ mid ∈ rs, mid ∈ party.nominationPool.map Movie.id) :
    (SubmitRanking true (some party) u rs).2 = Except.ok (rankedParty party u rs)
    ∧ (rankedParty party u rs).submissions = mapSet u rs party.submissions := by
  refine ⟨?_, rankedParty_submissions party u rs⟩
  simp [SubmitRanking, withLock, submitRankingBody_accepts party u rs hph hlen hmem]

/-- Witness for claim C10: on the pool of movies A and B, the duplicated
ranking consisting of A twice — not a permutation of the pool — is
accepted and stored. -/
theorem submitRanking_accepts_duplicates_witness :
    (SubmitRanking true (some partyR) "u1" ["A", "A"]).2
      = Except.ok (rankedParty partyR "u1" ["A", "A"])
    ∧ (rankedParty partyR "u1" ["A", "A"]).submissions
      = mapSet "u1" ["A", "A"] partyR.submissions
    ∧ ¬ (["A", "A"] : List String).Nodup := by
  obtain ⟨h₁, h₂⟩ :=
    submitRanking_accepts_duplicates partyR "u1" ["A", "A"] rfl (by decide) (by decide)
  exact ⟨h₁, h₂, by decide⟩

end ReelChoice
